import Mathlib

/-!
Verification of the kraken unified learning/memory core and selected tool
helpers, as a shallow embedding in Lean 4.

The learning core itself (experience store, knowledge graph, pattern
detector, state machine engine, FSRS scheduler under
`src/features/learning/`) is not part of the provided sources — only its
type declarations (`src/types/learning-context.ts`) and tool adapters
reference it.  Those components are therefore modelled from the spec,
each marked `Modelled from the spec:` in its doc comment.  The git tool
helpers (`src/tools/git/index.ts`), the todo storage helpers, and the MCP
configuration builders (`src/features/mcp/`) are embedded directly from
the source.
-/

namespace Kraken

/-! ## Experience store (spec §4.1) -/

/-- Outcome of a recorded experience.  `mixed` models the source's third
outcome value (spelled `partial` in the spec's data model). -/
inductive Outcome where
  | success
  | failure
  | mixed
deriving DecidableEq

/-- Caller-supplied payload of a `record` call (the id is assigned by the
store). -/
structure ExperienceInput where
  sessionId : String
  action : String
  toolsUsed : List String
  outcome : Outcome
  tags : List String
deriving DecidableEq

/-- A stored experience record.  Identity is `id`, assigned monotonically
by the store. -/
structure Experience where
  id : Nat
  sessionId : String
  action : String
  toolsUsed : List String
  outcome : Outcome
  tags : List String
deriving DecidableEq

/-- Modelled from the spec: the Experience Store, an append-mostly bounded
log.  `entries` is kept in insertion order, which by monotonic id
assignment is also ascending id order; `nextId` is the next fresh id. -/
structure ExperienceStore where
  maxEntries : Nat
  nextId : Nat
  entries : List Experience
deriving DecidableEq

def ExperienceStore.empty (maxEntries : Nat) : ExperienceStore :=
  { maxEntries := maxEntries, nextId := 0, entries := [] }

/-- Modelled from the spec: `evictOldest(n)` removes the `n` lowest-id
records.  Entries are maintained in ascending id order, so these are the
first `n` entries. -/
def ExperienceStore.evictOldest (s : ExperienceStore) (n : Nat) : ExperienceStore :=
  { s with entries := s.entries.drop n }

/-- The experience record produced for input `x` when the store's next
fresh id is `i`. -/
def mkExperience (i : Nat) (x : ExperienceInput) : Experience :=
  { id := i, sessionId := x.sessionId, action := x.action,
    toolsUsed := x.toolsUsed, outcome := x.outcome, tags := x.tags }

/-- Modelled from the spec: `record(experience) -> id` appends a record
with a fresh monotonically increasing id and calls `evictOldest` whenever
the post-insert size would exceed `maxEntries`. -/
def ExperienceStore.record (s : ExperienceStore) (x : ExperienceInput) :
    ExperienceStore × Nat :=
  let e := mkExperience s.nextId x
  let s1 : ExperienceStore :=
    { s with nextId := s.nextId + 1, entries := s.entries ++ [e] }
  let s2 := if s.maxEntries < s1.entries.length then
      s1.evictOldest (s1.entries.length - s.maxEntries)
    else s1
  (s2, e.id)

/-- `count()` returns the current number of stored records. -/
def ExperienceStore.count (s : ExperienceStore) : Nat :=
  s.entries.length

/-- Record a whole sequence of experiences in order. -/
def ExperienceStore.recordAll (s : ExperienceStore) (xs : List ExperienceInput) :
    ExperienceStore :=
  xs.foldl (fun st x => (st.record x).1) s

/-- The records an unbounded store would hold after recording `xs`
starting from fresh id `i`: one record per input, ids `i, i+1, …`. -/
def enumFrom (i : Nat) : List ExperienceInput → List Experience
  | [] => []
  | x :: xs => mkExperience i x :: enumFrom (i + 1) xs

/-! ## Knowledge graph store (spec §4.2) -/

/-- Kind of a knowledge node. -/
inductive NodeKind where
  | fact
  | pattern
  | heuristic
deriving DecidableEq

/-- Relation carried by a knowledge edge. -/
inductive EdgeRelation where
  | supports
  | contradicts
  | derivedFrom
  | relatedTo
deriving DecidableEq

/-- Modelled from the spec: the FSRS bookkeeping embedded in a knowledge
node (`SchedulerState`); populated only by the scheduler.  Timestamps are
discrete; the real-valued FSRS review computation is modelled separately
below. -/
structure SchedulerState where
  stability : ℚ
  difficulty : ℚ
  retrievability : ℚ
  dueAt : Nat
  reviewCount : Nat
  lapses : Nat
deriving DecidableEq

/-- A knowledge node.  `schedule` is absent until the scheduler populates
it. -/
structure KnowledgeNode where
  id : Nat
  kind : NodeKind
  content : String
  confidence : ℚ
  createdAt : Nat
  lastReviewedAt : Option Nat
  schedule : Option SchedulerState
deriving DecidableEq

/-- A knowledge edge; endpoints are node ids (weak references). -/
structure KnowledgeEdge where
  fromId : Nat
  toId : Nat
  relation : EdgeRelation
  weight : ℚ
deriving DecidableEq

/-- Modelled from the spec: the Knowledge Graph Store with its
construction-time configuration (`maxNodes` cap and the confidence merge
increment). -/
structure KnowledgeGraphStore where
  maxNodes : Nat
  confidenceIncrement : ℚ
  nextId : Nat
  nodes : List KnowledgeNode
  edges : List KnowledgeEdge
deriving DecidableEq

def KnowledgeGraphStore.empty (maxNodes : Nat) (confidenceIncrement : ℚ) :
    KnowledgeGraphStore :=
  { maxNodes := maxNodes, confidenceIncrement := confidenceIncrement,
    nextId := 0, nodes := [], edges := [] }

/-- Caller-supplied payload of an `upsertNode` call. -/
structure NodeInput where
  kind : NodeKind
  content : String
  confidence : ℚ
deriving DecidableEq

/-- Strip leading and trailing whitespace from a character list
(the JS `String.prototype.trim` over the string's characters). -/
def trimChars (cs : List Char) : List Char :=
  ((cs.dropWhile Char.isWhitespace).reverse.dropWhile Char.isWhitespace).reverse

/-- Modelled from the JS builtin `trim()`. -/
def jsTrim (s : String) : String :=
  String.mk (trimChars s.toList)

/-- Modelled from the spec: content normalization used by the
merge-by-content-hash lookup (whitespace-insensitive). -/
def normalizeContent (s : String) : String :=
  jsTrim s

/-- Two node descriptions merge when they agree on `kind` and normalized
`content`. -/
def sameNodeKey (n : KnowledgeNode) (x : NodeInput) : Bool :=
  n.kind = x.kind && normalizeContent n.content = normalizeContent x.content

/-- The confidence merge `confidence' = confidence + (1-confidence) * increment`. -/
def mergeConfidence (c inc : ℚ) : ℚ :=
  c + (1 - c) * inc

/-- Review time used for eviction tie-breaks: `lastReviewedAt`, or
`createdAt` if never reviewed. -/
def reviewTime (n : KnowledgeNode) : Nat :=
  n.lastReviewedAt.getD n.createdAt

/-- Eviction priority key: lowest confidence first, ties broken by oldest
review time. -/
def evictKey (n : KnowledgeNode) : Lex (ℚ × Nat) :=
  toLex (n.confidence, reviewTime n)

/-- Modelled from the spec: the node chosen for eviction — the one with
the lowest eviction key (first such node on full ties). -/
def evictTarget (ns : List KnowledgeNode) : Option KnowledgeNode :=
  ns.argmin evictKey

/-- Modelled from the spec: evict the lowest-confidence node, cascading to
all incident edges. -/
def KnowledgeGraphStore.evictCascade (g : KnowledgeGraphStore) : KnowledgeGraphStore :=
  match evictTarget g.nodes with
  | none => g
  | some v =>
      { g with
        nodes := g.nodes.filter (fun n => n.id ≠ v.id),
        edges := g.edges.filter (fun e => e.fromId ≠ v.id && e.toId ≠ v.id) }

/-- The fresh node an insert creates: next id, the given payload, created
now, never reviewed, no schedule. -/
def newNodeOf (g : KnowledgeGraphStore) (x : NodeInput) (now : Nat) : KnowledgeNode :=
  { id := g.nextId, kind := x.kind, content := x.content,
    confidence := x.confidence, createdAt := now,
    lastReviewedAt := none, schedule := none }

/-- Modelled from the spec: `upsertNode(node) -> id`.  If a node with the
same `kind` and normalized `content` exists, its confidence is merged;
otherwise a fresh node is inserted (with no schedule) and the
lowest-confidence node is evicted when the cap is exceeded. -/
def KnowledgeGraphStore.upsertNode (g : KnowledgeGraphStore) (x : NodeInput)
    (now : Nat) : KnowledgeGraphStore × Nat :=
  match g.nodes.find? (fun n => sameNodeKey n x) with
  | some n =>
      ({ g with
          nodes := g.nodes.map (fun m =>
            if m.id = n.id then
              { m with confidence := mergeConfidence m.confidence g.confidenceIncrement }
            else m) }, n.id)
  | none =>
      let node := newNodeOf g x now
      let g1 : KnowledgeGraphStore :=
        { g with nextId := g.nextId + 1, nodes := g.nodes ++ [node] }
      (if g.maxNodes < g1.nodes.length then g1.evictCascade else g1, node.id)

/-- Whether a node with the given id is currently present. -/
def KnowledgeGraphStore.hasNode (g : KnowledgeGraphStore) (i : Nat) : Bool :=
  g.nodes.any (fun n => n.id = i)

/-- Errors surfaced by the knowledge graph store. -/
inductive KgError where
  | notFoundError
deriving DecidableEq

/-- Modelled from the spec: `addEdge(from, to, relation, weight)` fails
with `NotFoundError` if either endpoint is absent. -/
def KnowledgeGraphStore.addEdge (g : KnowledgeGraphStore) (f t : Nat)
    (rel : EdgeRelation) (w : ℚ) : Except KgError KnowledgeGraphStore :=
  if g.hasNode f && g.hasNode t then
    .ok { g with edges := g.edges ++ [⟨f, t, rel, w⟩] }
  else
    .error .notFoundError

/-- Look a node up by id. -/
def KnowledgeGraphStore.findNode (g : KnowledgeGraphStore) (i : Nat) :
    Option KnowledgeNode :=
  g.nodes.find? (fun n => n.id = i)

/-- Modelled from the spec: `neighbors(id)` — the nodes connected to `id`
by an edge, resolved through the store. -/
def KnowledgeGraphStore.neighbors (g : KnowledgeGraphStore) (i : Nat) :
    List KnowledgeNode :=
  g.edges.filterMap (fun e =>
    if e.fromId = i then g.findNode e.toId
    else if e.toId = i then g.findNode e.fromId
    else none)

/-- Modelled from the spec: the periodic `decay` sweep, the only operation
allowed to lower confidence — it multiplies every confidence by a decay
factor. -/
def KnowledgeGraphStore.decay (g : KnowledgeGraphStore) (factor : ℚ) :
    KnowledgeGraphStore :=
  { g with nodes := g.nodes.map (fun n => { n with confidence := n.confidence * factor }) }

/-- A mutating operation on the knowledge graph store. -/
inductive GraphOp where
  | upsert (x : NodeInput) (now : Nat)
  | addEdge (f t : Nat) (rel : EdgeRelation) (w : ℚ)

/-- Apply one operation; a failing `addEdge` leaves the store unchanged. -/
def applyGraphOp (g : KnowledgeGraphStore) : GraphOp → KnowledgeGraphStore
  | .upsert x now => (g.upsertNode x now).1
  | .addEdge f t rel w =>
      match g.addEdge f t rel w with
      | .ok g' => g'
      | .error _ => g

/-- Apply a sequence of graph operations. -/
def runGraphOps (g : KnowledgeGraphStore) (ops : List GraphOp) : KnowledgeGraphStore :=
  ops.foldl applyGraphOp g

/-- Well-formedness: every edge endpoint references a present node. -/
def WfGraph (g : KnowledgeGraphStore) : Prop :=
  ∀ e ∈ g.edges, g.hasNode e.fromId = true ∧ g.hasNode e.toId = true

/-- How many stored nodes share the merge key of `x`. -/
def KnowledgeGraphStore.countKey (g : KnowledgeGraphStore) (x : NodeInput) : Nat :=
  (g.nodes.filter (fun n => sameNodeKey n x)).length

/-! ## Pattern detector (spec §4.3) -/

/-- A candidate pattern in the detector's working set. -/
structure Pattern where
  signature : List String
  support : Nat
  lastSeenAt : Nat
deriving DecidableEq

/-- Insert-or-update in an association list keyed by the first component
(updates in place, appends new keys at the end). -/
def upsertAssoc {β : Type} (l : List (String × β)) (k : String) (v : β) :
    List (String × β) :=
  if l.any (fun p => p.1 = k) then
    l.map (fun p => if p.1 = k then (k, v) else p)
  else
    l ++ [(k, v)]

/-- The last `n` elements of a list. -/
def takeLast {α : Type} (n : Nat) (l : List α) : List α :=
  l.drop (l.length - n)

/-- Modelled from the spec: the Pattern Detector — per-session sliding
windows of recent actions plus a working set of candidate signatures. -/
structure PatternDetector where
  windowSize : Nat
  maxPatternLength : Nat
  minSupport : Nat
  recencyWindow : Nat
  windows : List (String × List String)
  workingSet : List Pattern
deriving DecidableEq

def PatternDetector.empty (windowSize maxPatternLength minSupport recencyWindow : Nat) :
    PatternDetector :=
  { windowSize := windowSize, maxPatternLength := maxPatternLength,
    minSupport := minSupport, recencyWindow := recencyWindow,
    windows := [], workingSet := [] }

/-- Increment the support of `sig` (creating it with support 1 if absent)
and refresh its `lastSeenAt`. -/
def bumpPattern (ws : List Pattern) (sig : List String) (now : Nat) : List Pattern :=
  if ws.any (fun p => p.signature = sig) then
    ws.map (fun p =>
      if p.signature = sig then { p with support := p.support + 1, lastSeenAt := now }
      else p)
  else
    ws ++ [{ signature := sig, support := 1, lastSeenAt := now }]

/-- Modelled from the spec: `observe(experience)` — slide the session
window, then for each sub-sequence length `k` in `[2, maxPatternLength]`
ending at the newest action bump the `k`-gram's support. -/
def PatternDetector.observe (d : PatternDetector) (sessionId action : String)
    (now : Nat) : PatternDetector :=
  let w0 := ((d.windows.find? (fun p => p.1 = sessionId)).map Prod.snd).getD []
  let w := takeLast d.windowSize (w0 ++ [action])
  let ks := List.range' 2 (d.maxPatternLength - 1)
  let ws := ks.foldl (fun acc k =>
    if k ≤ w.length then bumpPattern acc (takeLast k w) now else acc) d.workingSet
  { d with windows := upsertAssoc d.windows sessionId w, workingSet := ws }

/-- Modelled from the spec: `promote()` — drop candidates that aged out of
`recencyWindow` (their support resets to 0), return every remaining
pattern with `support ≥ minSupport`, and remove the returned patterns from
the working set. -/
def PatternDetector.promote (d : PatternDetector) (now : Nat) :
    List Pattern × PatternDetector :=
  let fresh := d.workingSet.filter (fun p => now ≤ p.lastSeenAt + d.recencyWindow)
  let promoted := fresh.filter (fun p => d.minSupport ≤ p.support)
  (promoted, { d with workingSet := fresh.filter (fun p => p.support < d.minSupport) })

/-- Current support of a signature (0 when it is not in the working set). -/
def PatternDetector.supportOf (d : PatternDetector) (sig : List String) : Nat :=
  ((d.workingSet.find? (fun p => p.signature = sig)).map Pattern.support).getD 0

/-- Observe a list of `(action, timestamp)` events for one session. -/
def PatternDetector.observeAll (d : PatternDetector) (sessionId : String)
    (events : List (String × Nat)) : PatternDetector :=
  events.foldl (fun acc ev => acc.observe sessionId ev.1 ev.2) d

/-! ## State machine engine (spec §4.4) -/

/-- A state-machine definition: states, initial state, transition table,
terminal states and optional guards over the context. -/
structure SMDefinition where
  states : List String
  initial : String
  transitions : List ((String × String) × String)
  terminal : List String
  guards : List ((String × String) × (List (String × String) → Bool))

/-- A live state-machine instance. -/
structure SMInstance where
  currentState : String
  history : List (String × Nat)
  context : List (String × String)

/-- State-machine protocol errors. -/
inductive SMError where
  | invalidTransition
  | guardRejected
  | instanceTerminated
  | notFoundError
  | alreadyActive
deriving DecidableEq

/-- Look up a `(state, event)` keyed table. -/
def lookupPair {β : Type} (l : List ((String × String) × β)) (k : String × String) :
    Option β :=
  (l.find? (fun p => p.1 = k)).map Prod.snd

/-- Merge a context patch into a context (JS object-spread semantics:
patch entries overwrite existing keys). -/
def mergeContext (ctx patch : List (String × String)) : List (String × String) :=
  patch.foldl (fun acc kv => upsertAssoc acc kv.1 kv.2) ctx

/-- The successfully transitioned instance: new current state, appended
history entry, merged context. -/
def advanceInstance (inst : SMInstance) (next : String)
    (patch : List (String × String)) (now : Nat) : SMInstance :=
  { currentState := next,
    history := inst.history ++ [(next, now)],
    context := mergeContext inst.context patch }

/-- Modelled from the spec: `fire` on a single instance — fails with
`InstanceTerminated` on a terminal current state, `InvalidTransition` when
`transitions[(currentState, event)]` is absent, and `GuardRejected` when a
declared guard evaluates false; otherwise advances the instance. -/
def fireInstance (d : SMDefinition) (inst : SMInstance) (event : String)
    (patch : List (String × String)) (now : Nat) : Except SMError SMInstance :=
  if inst.currentState ∈ d.terminal then .error .instanceTerminated
  else
    match lookupPair d.transitions (inst.currentState, event) with
    | none => .error .invalidTransition
    | some next =>
        match lookupPair d.guards (inst.currentState, event) with
        | some guard =>
            if guard inst.context then .ok (advanceInstance inst next patch now)
            else .error .guardRejected
        | none => .ok (advanceInstance inst next patch now)

/-- Modelled from the spec: the State Machine Engine — registered
definitions plus one live instance per `(session, definition)` pair. -/
structure StateMachineEngine where
  definitions : List (String × SMDefinition)
  instances : List ((String × String) × SMInstance)

/-- Modelled from the spec: `start` — fails with `AlreadyActive` when a
live instance for the pair exists, otherwise creates an instance in the
definition's initial state. -/
def StateMachineEngine.start (eng : StateMachineEngine)
    (sessionId definitionId : String) (initialContext : List (String × String))
    (now : Nat) : StateMachineEngine × Except SMError String :=
  match (eng.definitions.find? (fun p => p.1 = definitionId)).map Prod.snd with
  | none => (eng, .error .notFoundError)
  | some d =>
      match lookupPair eng.instances (sessionId, definitionId) with
      | some _ => (eng, .error .alreadyActive)
      | none =>
          let inst : SMInstance :=
            { currentState := d.initial, history := [(d.initial, now)],
              context := initialContext }
          ({ eng with instances := eng.instances ++ [((sessionId, definitionId), inst)] },
           .ok d.initial)

/-- Modelled from the spec: engine-level `fire` — on any failure the
engine (hence the instance's state, history and context) is returned
unchanged; on success the stored instance advances and the new state is
returned. -/
def StateMachineEngine.fire (eng : StateMachineEngine)
    (sessionId definitionId event : String) (patch : List (String × String))
    (now : Nat) : StateMachineEngine × Except SMError String :=
  match lookupPair eng.instances (sessionId, definitionId) with
  | none => (eng, .error .notFoundError)
  | some inst =>
      match (eng.definitions.find? (fun p => p.1 = definitionId)).map Prod.snd with
      | none => (eng, .error .notFoundError)
      | some d =>
          match fireInstance d inst event patch now with
          | .error e => (eng, .error e)
          | .ok inst' =>
              ({ eng with
                  instances := eng.instances.map (fun p =>
                    if p.1 = (sessionId, definitionId) then (p.1, inst') else p) },
               .ok inst'.currentState)

/-- The current state of a live instance, if any. -/
def StateMachineEngine.currentStateOf (eng : StateMachineEngine)
    (sessionId definitionId : String) : Option String :=
  (lookupPair eng.instances (sessionId, definitionId)).map SMInstance.currentState

/-- The example definition from the spec's testable properties:
`{(idle,start)->running, (running,finish)->done}` with `terminal={done}`. -/
def exampleDef : SMDefinition :=
  { states := ["idle", "running", "done"], initial := "idle",
    transitions := [(("idle", "start"), "running"), (("running", "finish"), "done")],
    terminal := ["done"], guards := [] }

/-- An engine holding the example definition and a live instance for
session `s` sitting in the initial state. -/
def exampleEngine : StateMachineEngine :=
  { definitions := [("wf", exampleDef)],
    instances := [(("s", "wf"),
      { currentState := "idle", history := [("idle", 0)], context := [] })] }

/-! ## Spaced-repetition scheduler, FSRS (spec §4.5)

The review computation is modelled over the reals, following the spec's
formulas exactly; timestamps and elapsed days are real-valued here. -/

/-- A review grade. -/
inductive Grade where
  | again
  | hard
  | good
  | easy
deriving DecidableEq

/-- Modelled from the spec: construction-time FSRS parameters. -/
structure FsrsParams where
  defaultStability : ℝ
  defaultDifficulty : ℝ
  growthRate : ℝ
  decayRate : ℝ
  lapseFactor : ℝ
  targetRetention : ℝ

/-- Modelled from the spec: the real-valued FSRS memory state of one
knowledge item. -/
structure FsrsState where
  stability : ℝ
  difficulty : ℝ
  dueAt : ℝ
  reviewCount : Nat
  lapses : Nat

/-- Difficulty floor used by the clamp. -/
noncomputable def minDifficulty : ℝ := 1

/-- Difficulty ceiling used by the clamp and the `again` penalty. -/
noncomputable def maxDifficulty : ℝ := 10

/-- Modelled from the spec: the difficulty penalty applied on a lapse. -/
noncomputable def difficultyPenalty : ℝ := 1

/-- Modelled from the spec: the per-grade stability growth multiplier
`gradeBonus` (only successful grades use it); harder grades earn a
smaller bonus. -/
noncomputable def gradeBonus : Grade → ℝ
  | .again => 1
  | .hard => 6 / 5
  | .good => 8 / 5
  | .easy => 2

/-- Modelled from the spec: the per-grade difficulty adjustment
`gradeAdjust` (hard increases difficulty, easy decreases it). -/
noncomputable def gradeAdjust : Grade → ℝ
  | .again => 0
  | .hard => -(1 / 2)
  | .good => 0
  | .easy => 1 / 2

/-- clamp(x, lo, hi). -/
noncomputable def clampR (x lo hi : ℝ) : ℝ :=
  min (max x lo) hi

/-- Modelled from the spec: the FSRS forgetting curve
`retrievability = exp(-t / (9 * stability))`. -/
noncomputable def retrievabilityOf (stability t : ℝ) : ℝ :=
  Real.exp (-t / (9 * stability))

/-- Modelled from the spec: `intervalDays` solves the forgetting curve for
the configured target retention. -/
noncomputable def intervalDays (p : FsrsParams) (stability : ℝ) : ℝ :=
  9 * stability * Real.log (1 / p.targetRetention)

/-- Modelled from the spec: `initSchedule` — default stability and
difficulty, due immediately, no reviews yet. -/
noncomputable def initSchedule (p : FsrsParams) (now : ℝ) : FsrsState :=
  { stability := p.defaultStability, difficulty := p.defaultDifficulty,
    dueAt := now, reviewCount := 0, lapses := 0 }

/-- Modelled from the spec: `review(nodeId, grade, now)` over the memory
state, with `t` the elapsed days since the last review.  `again` lapses the
item (stability shrinks by `lapseFactor`, difficulty is penalised); the
successful grades grow stability by
`1 + exp(growthRate) * (11 - difficulty) * retrievability^(-decayRate) * (gradeBonus[grade] - 1)`. -/
noncomputable def fsrsReview (p : FsrsParams) (s : FsrsState) (grade : Grade)
    (t now : ℝ) : FsrsState :=
  let r := retrievabilityOf s.stability t
  let stab' :=
    match grade with
    | .again => s.stability * p.lapseFactor
    | g =>
        s.stability *
          (1 + Real.exp p.growthRate * (11 - s.difficulty) *
            Real.rpow r (-p.decayRate) * (gradeBonus g - 1))
  let diff' :=
    match grade with
    | .again => min (s.difficulty + difficultyPenalty) maxDifficulty
    | g => clampR (s.difficulty - gradeAdjust g) minDifficulty maxDifficulty
  { stability := stab', difficulty := diff',
    dueAt := now + intervalDays p stab',
    reviewCount := s.reviewCount + 1,
    lapses := if grade = .again then s.lapses + 1 else s.lapses }

/-! ## Learning system context (src/types/learning-context.ts) and
due-review queries -/

/-- The unified learning context from `src/types/learning-context.ts`:
the four stores plus an optional FSRS scheduler (`fsrsScheduler?` — the
scheduler is modelled by its configuration). -/
structure LearningSystemContext where
  experienceStore : ExperienceStore
  knowledgeGraph : KnowledgeGraphStore
  patternDetector : PatternDetector
  stateMachine : StateMachineEngine
  fsrsScheduler : Option FsrsParams

/-- Due-sort key: a node's scheduled due time (nodes without a schedule
never match the due filter, so the default is irrelevant). -/
def dueKey (n : KnowledgeNode) : Nat :=
  ((n.schedule.map SchedulerState.dueAt)).getD 0

/-- Insert into a list kept ascending by due time (most overdue first). -/
def insertByDue (n : KnowledgeNode) : List KnowledgeNode → List KnowledgeNode
  | [] => [n]
  | m :: ms => if dueKey n ≤ dueKey m then n :: m :: ms else m :: insertByDue n ms

/-- Sort by due time, most overdue first. -/
def sortByDue (l : List KnowledgeNode) : List KnowledgeNode :=
  l.foldr insertByDue []

/-- Modelled from the spec: `dueForReview(now, limit)` — the nodes whose
schedule says `dueAt ≤ now`, most overdue first, truncated to `limit`.
Nodes whose schedule was never populated are not due. -/
def dueForReview (ctx : LearningSystemContext) (now limit : Nat) :
    List KnowledgeNode :=
  let due := ctx.knowledgeGraph.nodes.filter (fun n =>
    match n.schedule with
    | some st => st.dueAt ≤ now
    | none => false)
  (sortByDue due).take limit

/-- Write a scheduler state into a node (identity on other nodes). -/
def setSchedule (g : KnowledgeGraphStore) (nodeId : Nat) (st : SchedulerState) :
    KnowledgeGraphStore :=
  { g with nodes := g.nodes.map (fun n =>
      if n.id = nodeId then { n with schedule := some st } else n) }

/-- A system-level operation through the learning adapters.  `schedule`
covers both `initSchedule` and the persistence of a `review` result; it is
the only way a node's `schedule` field is populated, and it is a no-op
when the scheduler is absent (the adapters cannot call a scheduler that
was never constructed). -/
inductive SystemOp where
  | upsertNode (x : NodeInput) (now : Nat)
  | addEdge (f t : Nat) (rel : EdgeRelation) (w : ℚ)
  | schedule (nodeId : Nat) (st : SchedulerState)

/-- Apply one system operation. -/
def applySystemOp (ctx : LearningSystemContext) : SystemOp → LearningSystemContext
  | .upsertNode x now =>
      { ctx with knowledgeGraph := (ctx.knowledgeGraph.upsertNode x now).1 }
  | .addEdge f t rel w =>
      { ctx with knowledgeGraph := applyGraphOp ctx.knowledgeGraph (.addEdge f t rel w) }
  | .schedule nodeId st =>
      match ctx.fsrsScheduler with
      | none => ctx
      | some _ =>
          { ctx with knowledgeGraph := setSchedule ctx.knowledgeGraph nodeId st }

/-- Apply a sequence of system operations. -/
def runSystemOps (ctx : LearningSystemContext) (ops : List SystemOp) :
    LearningSystemContext :=
  ops.foldl applySystemOp ctx

/-! ## Git tool helpers (src/tools/git/index.ts) -/

/-- The observable outcome of one `execAsync('git …')` call: whether the
process succeeded, and the captured output streams (empty string when a
stream produced nothing, matching Node's `exec`). -/
structure ExecResult where
  ok : Bool
  stdout : String
  stderr : String
deriving DecidableEq

/-- `runGit` from `src/tools/git/index.ts`: on success return
`stdout || stderr`; on failure return `error.stdout` if truthy, else
`error.stderr` if truthy, else throw. -/
def runGit (r : ExecResult) : Except String String :=
  if r.ok then .ok (if r.stdout ≠ "" then r.stdout else r.stderr)
  else if r.stdout ≠ "" then .ok r.stdout
  else if r.stderr ≠ "" then .ok r.stderr
  else .error "Git command failed"

/-- The JSON payload a git tool returns to its caller. -/
structure GitToolResult where
  status : String
  output : String
deriving DecidableEq

/-- The `git_status` tool body: `runGit` then
`JSON.stringify(\x7b status: 'success', output: result || 'Working tree clean' \x7d)`;
an exception from `runGit` propagates. -/
def gitStatusExecute (r : ExecResult) : Except String GitToolResult :=
  (runGit r).map (fun out =>
    { status := "success",
      output := if out = "" then "Working tree clean" else out })

/-! ## Todo storage (src/tools/git/index.ts, kraken-todo section) -/

/-- JSON values as produced by the JS builtin `JSON.parse`. -/
inductive JsValue where
  | jsNull
  | jsBool (b : Bool)
  | jsNum (q : ℚ)
  | jsStr (s : String)
  | jsArr (items : List JsValue)
  | jsObj (entries : List (String × JsValue))

/-- Whether a parsed value is the JS `null` (the todo loader filters with
`entry !== null`). -/
def JsValue.isNull : JsValue → Bool
  | .jsNull => true
  | _ => false

/-- Opening brace character. -/
def lbrace : Char := Char.ofNat 123

/-- Closing brace character. -/
def rbrace : Char := Char.ofNat 125

/-- JSON whitespace. -/
def skipWs (cs : List Char) : List Char :=
  cs.dropWhile (fun c => c = ' ' || c = '\t' || c = '\n' || c = '\r')

/-- Match a literal character sequence, returning the remainder. -/
def matchLit : List Char → List Char → Option (List Char)
  | [], cs => some cs
  | l :: ls, c :: cs => if c = l then matchLit ls cs else none
  | _ :: _, [] => none

/-- The numeric value of one hexadecimal digit, if it is one. -/
def hexDigitValue (c : Char) : Option Nat :=
  if c.isDigit then some (c.toNat - 48)
  else if 'a' ≤ c && c ≤ 'f' then some (c.toNat - 97 + 10)
  else if 'A' ≤ c && c ≤ 'F' then some (c.toNat - 65 + 10)
  else none

/-- Leading decimal digits and the remainder. -/
def takeDigits (cs : List Char) : List Char × List Char :=
  (cs.takeWhile Char.isDigit, cs.dropWhile Char.isDigit)

/-- Numeric value of a digit string. -/
def digitsToNat (ds : List Char) : Nat :=
  ds.foldl (fun n c => 10 * n + (c.toNat - '0'.toNat)) 0

/-- Parse the exponent part of a JSON number (after `e`/`E`). -/
def parseExponent (cs : List Char) : Option (Int × List Char) :=
  match cs with
  | c :: r =>
      if c = '+' then
        match takeDigits r with
        | ([], _) => none
        | (ds, r2) => some ((digitsToNat ds : Int), r2)
      else if c = '-' then
        match takeDigits r with
        | ([], _) => none
        | (ds, r2) => some (-(digitsToNat ds : Int), r2)
      else
        match takeDigits cs with
        | ([], _) => none
        | (ds, r2) => some ((digitsToNat ds : Int), r2)
  | [] => none

/-- Parse a JSON number into an exact rational. -/
def parseNumber (cs : List Char) : Option (ℚ × List Char) :=
  let signed : Bool × List Char :=
    match cs with
    | c :: r => if c = '-' then (true, r) else (false, cs)
    | [] => (false, cs)
  match takeDigits signed.2 with
  | ([], _) => none
  | (ints, cs2) =>
      let mant : ℚ := (digitsToNat ints : ℚ)
      let fracPart : Option (ℚ × List Char) :=
        match cs2 with
        | c :: r =>
            if c = '.' then
              match takeDigits r with
              | ([], _) => none
              | (fds, r2) => some ((digitsToNat fds : ℚ) / (10 : ℚ) ^ fds.length, r2)
            else some (0, cs2)
        | [] => some (0, cs2)
      match fracPart with
      | none => none
      | some (fv, cs3) =>
          let expPart : Option (Int × List Char) :=
            match cs3 with
            | c :: r =>
                if c = 'e' || c = 'E' then parseExponent r
                else some (0, cs3)
            | [] => some (0, cs3)
          match expPart with
          | none => none
          | some (ex, cs4) =>
              some ((if signed.1 then -1 else 1) * (mant + fv) * (10 : ℚ) ^ ex, cs4)

/-- Parse the body of a JSON string after the opening quote; `acc` holds
the characters read so far in reverse. -/
def parseStringRest : Nat → List Char → List Char → Option (String × List Char)
  | 0, _, _ => none
  | _ + 1, [], _ => none
  | fuel + 1, c :: r, acc =>
      if c = '"' then some (String.mk acc.reverse, r)
      else if c = '\\' then
        match r with
        | [] => none
        | e :: r2 =>
            if e = '"' then parseStringRest fuel r2 ('"' :: acc)
            else if e = '\\' then parseStringRest fuel r2 ('\\' :: acc)
            else if e = '/' then parseStringRest fuel r2 ('/' :: acc)
            else if e = 'n' then parseStringRest fuel r2 ('\n' :: acc)
            else if e = 't' then parseStringRest fuel r2 ('\t' :: acc)
            else if e = 'r' then parseStringRest fuel r2 ('\r' :: acc)
            else if e = 'b' then parseStringRest fuel r2 (Char.ofNat 8 :: acc)
            else if e = 'f' then parseStringRest fuel r2 (Char.ofNat 12 :: acc)
            else if e = 'u' then
              match r2 with
              | h1 :: h2 :: h3 :: h4 :: r3 =>
                  match hexDigitValue h1, hexDigitValue h2, hexDigitValue h3, hexDigitValue h4 with
                  | some a, some b, some c3, some d =>
                      parseStringRest fuel r3
                        (Char.ofNat (((a * 16 + b) * 16 + c3) * 16 + d) :: acc)
                  | _, _, _, _ => none
              | _ => none
            else none
      else parseStringRest fuel r (c :: acc)

mutual

/-- Modelled from the JS builtin `JSON.parse` used by the todo loader: a
recursive-descent parser over the JSON grammar (fuel-bounded; the fuel
supplied by `jsonParse` suffices for all inputs it is applied to). -/
def parseVal : Nat → List Char → Option (JsValue × List Char)
  | 0, _ => none
  | fuel + 1, cs =>
      match skipWs cs with
      | [] => none
      | c :: rest =>
          if c = 'n' then (matchLit ['u', 'l', 'l'] rest).map (fun r => (JsValue.jsNull, r))
          else if c = 't' then (matchLit ['r', 'u', 'e'] rest).map (fun r => (JsValue.jsBool true, r))
          else if c = 'f' then (matchLit ['a', 'l', 's', 'e'] rest).map (fun r => (JsValue.jsBool false, r))
          else if c = '"' then (parseStringRest (fuel + 1) rest []).map (fun p => (JsValue.jsStr p.1, p.2))
          else if c = '[' then
            match skipWs rest with
            | ']' :: r2 => some (JsValue.jsArr [], r2)
            | r1 => (parseElems fuel r1 []).map (fun p => (JsValue.jsArr p.1, p.2))
          else if c = lbrace then
            match skipWs rest with
            | c2 :: r2 =>
                if c2 = rbrace then some (JsValue.jsObj [], r2)
                else (parseFields fuel (c2 :: r2) []).map (fun p => (JsValue.jsObj p.1, p.2))
            | [] => none
          else (parseNumber (c :: rest)).map (fun p => (JsValue.jsNum p.1, p.2))

/-- Array elements after `[` (at least one element). -/
def parseElems : Nat → List Char → List JsValue → Option (List JsValue × List Char)
  | 0, _, _ => none
  | fuel + 1, cs, acc =>
      match parseVal fuel cs with
      | none => none
      | some (j, r) =>
          match skipWs r with
          | ',' :: r2 => parseElems fuel r2 (acc ++ [j])
          | ']' :: r2 => some (acc ++ [j], r2)
          | _ => none

/-- Object members after the opening brace (at least one member). -/
def parseFields : Nat → List Char → List (String × JsValue) →
    Option (List (String × JsValue) × List Char)
  | 0, _, _ => none
  | fuel + 1, cs, acc =>
      match skipWs cs with
      | '"' :: r =>
          match parseStringRest (fuel + 1) r [] with
          | none => none
          | some (key, r2) =>
              match skipWs r2 with
              | ':' :: r3 =>
                  match parseVal fuel r3 with
                  | none => none
                  | some (v, r4) =>
                      match skipWs r4 with
                      | ',' :: r5 => parseFields fuel r5 (acc ++ [(key, v)])
                      | c :: r5 =>
                          if c = rbrace then some (acc ++ [(key, v)], r5) else none
                      | [] => none
              | _ => none
      | _ => none

end

/-- Modelled from the JS builtin: `JSON.parse(line)` — parse one complete
JSON document, rejecting trailing garbage; `none` models a thrown
`SyntaxError`. -/
def jsonParse (s : String) : Option JsValue :=
  let cs := s.toList
  match parseVal (2 * cs.length + 4) cs with
  | some (j, rest) => if (skipWs rest).isEmpty then some j else none
  | none => none

/-- Split a character list at newline characters, keeping empty segments
(the JS `split('\n')`). -/
def splitLines : List Char → List (List Char)
  | [] => [[]]
  | c :: rest =>
      match splitLines rest with
      | [] => [[]]
      | l :: ls => if c = '\n' then [] :: l :: ls else (c :: l) :: ls

/-- Modelled from the JS pipeline `content.trim().split('\n')`. -/
def jsLines (content : String) : List String :=
  (splitLines (trimChars content.toList)).map String.mk

/-- `loadKrakenTodos` from `src/tools/git/index.ts`: `none` models an
absent or unreadable todo file (every thrown error is caught and yields
`[]`); otherwise the file content is trimmed, split into lines, each line
is `JSON.parse`d with failures mapped to `null`, and non-`null` entries
are returned. -/
def loadKrakenTodos (file : Option String) : List JsValue :=
  match file with
  | none => []
  | some content =>
      ((jsLines content).map (fun line => (jsonParse line).getD JsValue.jsNull)).filter
        (fun e => !e.isNull)

/-- The per-line contribution according to the amended claim: a line is
kept exactly when it parses to a JSON value other than `null`. -/
def keptLine (line : String) : Option JsValue :=
  match jsonParse line with
  | some j => if j.isNull then none else some j
  | none => none

/-- The todo loader as the amended claim describes it: absent or
unreadable files give `[]`; otherwise each line contributes its parsed
value exactly when it parses to a non-`null` JSON value. -/
def loadKrakenTodosSpec (file : Option String) : List JsValue :=
  match file with
  | none => []
  | some content => (jsLines content).filterMap keptLine

/-! ## Built-in MCP configurations (src/features/mcp/) -/

/-- A remote MCP server configuration (`RemoteMcpConfig` with
`type: 'remote'` implicit). -/
structure RemoteMcpConfig where
  url : String
  enabled : Bool
  headers : Option (List (String × String))
  oauth : Bool
deriving DecidableEq

/-- The environment variables the MCP config builders read. -/
structure McpEnv where
  context7ApiKey : Option String
  exaApiKey : Option String
  tavilyApiKey : Option String
deriving DecidableEq

/-- Websearch provider selection. -/
inductive WebsearchProvider where
  | exa
  | tavily
deriving DecidableEq

/-- `WebsearchConfig` from `src/features/mcp/types.ts`. -/
structure WebsearchConfig where
  provider : Option WebsearchProvider
deriving DecidableEq

/-- `createWebsearchConfig` from `src/features/mcp/websearch.ts`: tavily
requires `TAVILY_API_KEY` (throwing otherwise); the default exa provider
always succeeds, attaching an `x-api-key` header when `EXA_API_KEY` is
set. -/
def createWebsearchConfig (env : McpEnv) (config : Option WebsearchConfig) :
    Except String RemoteMcpConfig :=
  let provider := (config.bind WebsearchConfig.provider).getD .exa
  match provider with
  | .tavily =>
      match env.tavilyApiKey with
      | none => .error "TAVILY_API_KEY environment variable is required for Tavily provider"
      | some key =>
          .ok { url := "https://mcp.tavily.com/mcp/", enabled := true,
                headers := some [("Authorization", "Bearer " ++ key)], oauth := false }
  | .exa =>
      .ok { url := "https://mcp.exa.ai/mcp?tools=web_search_exa", enabled := true,
            headers := env.exaApiKey.map (fun k => [("x-api-key", k)]),
            oauth := false }

/-- `context7` from `src/features/mcp/context7.ts`. -/
def context7 (env : McpEnv) : RemoteMcpConfig :=
  { url := "https://mcp.context7.com/mcp", enabled := true,
    headers := env.context7ApiKey.map (fun k => [("Authorization", "Bearer " ++ k)]),
    oauth := false }

/-- `grep_app` from `src/features/mcp/grep-app.ts`. -/
def grep_app : RemoteMcpConfig :=
  { url := "https://mcp.grep.app", enabled := true, headers := none, oauth := false }

/-- `builtinMcpNames` from `src/features/mcp/index.ts`. -/
def builtinMcpNames : List String :=
  ["websearch", "context7", "grep_app"]

/-- `createBuiltinMcpConfigs` from `src/features/mcp/index.ts`: include
each builtin server unless its name appears in `disabledMcps`; the map is
built in declaration order. -/
def createBuiltinMcpConfigs (env : McpEnv) (disabledMcps : List String)
    (config : Option WebsearchConfig) :
    Except String (List (String × RemoteMcpConfig)) :=
  let ws : Except String (List (String × RemoteMcpConfig)) :=
    if "websearch" ∈ disabledMcps then .ok []
    else (createWebsearchConfig env config).map (fun c => [("websearch", c)])
  match ws with
  | .error e => .error e
  | .ok wsEntries =>
      .ok (wsEntries ++
        (if "context7" ∈ disabledMcps then [] else [("context7", context7 env)]) ++
        (if "grep_app" ∈ disabledMcps then [] else [("grep_app", grep_app)]))

/-! ## Concrete fixtures used by witness statements -/

/-- A minimal experience payload for concrete runs. -/
def sampleInput (a : String) : ExperienceInput :=
  { sessionId := "s", action := a, toolsUsed := [], outcome := .success, tags := [] }

/-- A knowledge graph at its cap (two nodes, `maxNodes = 2`) with one
edge, used to exercise eviction concretely. -/
def exampleGraph : KnowledgeGraphStore :=
  { maxNodes := 2, confidenceIncrement := 1 / 10, nextId := 2,
    nodes :=
      [{ id := 0, kind := .fact, content := "x", confidence := 1 / 2,
         createdAt := 1, lastReviewedAt := none, schedule := none },
       { id := 1, kind := .fact, content := "y", confidence := 3 / 10,
         createdAt := 2, lastReviewedAt := none, schedule := none }],
    edges := [{ fromId := 0, toId := 1, relation := .supports, weight := 1 }] }

/-- The detector state after one session observes the actions
`[A,B,A,B,A,B]` at times 1..6 (`minSupport = 3`). -/
def detectorAfterObservations : PatternDetector :=
  (PatternDetector.empty 20 3 3 100).observeAll "s"
    [("A", 1), ("B", 2), ("A", 3), ("B", 4), ("A", 5), ("B", 6)]

/-- A learning context constructed without an FSRS scheduler. -/
def exampleContext : LearningSystemContext :=
  { experienceStore := ExperienceStore.empty 10,
    knowledgeGraph := KnowledgeGraphStore.empty 10 (1 / 10),
    patternDetector := PatternDetector.empty 20 3 3 100,
    stateMachine := { definitions := [], instances := [] },
    fsrsScheduler := none }

/-! # Theorems -/

/-- C6 — Pattern promotion: for one session observing actions
`[A,B,A,B,A,B]` with `minSupport = 3`, the signature `[A,B]` is promoted
exactly once with support 3 and leaves the working set; the signature
`[B,A]` seen only twice is never promoted, and its support resets to 0
once it ages out of `recencyWindow`. -/
theorem pattern_promotion_scenario :
    (detectorAfterObservations.promote 6).1 =
      [{ signature := ["A", "B"], support := 3, lastSeenAt := 6 }] ∧
    ((detectorAfterObservations.promote 6).2.promote 6).1 = [] ∧
    (∀ p ∈ (detectorAfterObservations.promote 6).2.workingSet,
      p.signature ≠ ["A", "B"]) ∧
    (detectorAfterObservations.promote 6).2.supportOf ["B", "A"] = 2 ∧
    ((detectorAfterObservations.promote 6).2.promote 106).1 = [] ∧
    ((detectorAfterObservations.promote 6).2.promote 106).2.supportOf ["B", "A"] = 0 := by
  decide

/-- C8 — git tools report success on failed commands: when the git
process fails but produced any stdout or stderr, `runGit` returns that
output instead of raising, so `git_status` still answers with status
`success`; `runGit` throws only when a failed command produced neither
stdout nor stderr. -/
theorem git_tools_success_on_failed_command (r : ExecResult) :
    (r.ok = false → r.stdout ≠ "" ∨ r.stderr ≠ "" →
      ∃ g, gitStatusExecute r = .ok g ∧ g.status = "success") ∧
    (∀ msg, runGit r = .error msg → r.ok = false ∧ r.stdout = "" ∧ r.stderr = "") ∧
    (r.ok = false → r.stdout = "" → r.stderr = "" →
      runGit r = .error "Git command failed") := by
  obtain ⟨ok, so, se⟩ := r
  refine ⟨?_, ?_, ?_⟩
  · rintro rfl h
    by_cases hso : so = ""
    · have hse : se ≠ "" := by
        rcases h with h | h
        · exact absurd hso (by simpa using h)
        · simpa using h
      refine ⟨{ status := "success", output := se }, ?_, rfl⟩
      simp [gitStatusExecute, runGit, Except.map, hso, hse]
    · refine ⟨{ status := "success", output := so }, ?_, rfl⟩
      simp [gitStatusExecute, runGit, Except.map, hso]
  · intro msg h
    by_cases hok : ok = true <;> by_cases hso : so = "" <;> by_cases hse : se = "" <;>
      simp_all [runGit]
  · rintro rfl rfl rfl
    simp [runGit]

/-- C8 witness: a failed command with stderr output still yields a
`success` tool result. -/
theorem git_tools_success_on_failed_command_witness :
    ∃ g, gitStatusExecute { ok := false, stdout := "", stderr := "boom" } = .ok g ∧
      g.status = "success" :=
  (git_tools_success_on_failed_command
    { ok := false, stdout := "", stderr := "boom" }).1 rfl (Or.inr (by decide))

/-- C10 — builtin MCP selection is exact: with the default configuration,
`createBuiltinMcpConfigs` returns a map whose keys are exactly the
builtin names not appearing in `disabledMcps`, and entries of the
disabled list outside the builtin set have no effect. -/
theorem builtin_mcp_selection_exact (env : McpEnv) (disabled : List String) :
    (∃ cfgs, createBuiltinMcpConfigs env disabled none = .ok cfgs ∧
      cfgs.map Prod.fst = builtinMcpNames.filter (fun n => decide (n ∉ disabled))) ∧
    createBuiltinMcpConfigs env disabled none =
      createBuiltinMcpConfigs env (disabled.filter (fun n => decide (n ∈ builtinMcpNames))) none := by
  have hmain : ∀ dl : List String, createBuiltinMcpConfigs env dl none =
      .ok ((if "websearch" ∈ dl then [] else
              [("websearch",
                { url := "https://mcp.exa.ai/mcp?tools=web_search_exa", enabled := true,
                  headers := env.exaApiKey.map (fun k => [("x-api-key", k)]),
                  oauth := false })]) ++
           (if "context7" ∈ dl then [] else [("context7", context7 env)]) ++
           (if "grep_app" ∈ dl then [] else [("grep_app", grep_app)])) := by
    intro dl
    by_cases h1 : "websearch" ∈ dl <;>
      simp [createBuiltinMcpConfigs, createWebsearchConfig, Except.map, h1]
  constructor
  · rw [hmain]
    refine ⟨_, rfl, ?_⟩
    by_cases h1 : "websearch" ∈ disabled <;> by_cases h2 : "context7" ∈ disabled <;>
      by_cases h3 : "grep_app" ∈ disabled <;>
      simp [builtinMcpNames, List.filter, h1, h2, h3]
  · have e1 : ("websearch" ∈ disabled.filter (fun n => decide (n ∈ builtinMcpNames))) ↔
        "websearch" ∈ disabled := by
      simp [List.mem_filter, builtinMcpNames]
    have e2 : ("context7" ∈ disabled.filter (fun n => decide (n ∈ builtinMcpNames))) ↔
        "context7" ∈ disabled := by
      simp [List.mem_filter, builtinMcpNames]
    have e3 : ("grep_app" ∈ disabled.filter (fun n => decide (n ∈ builtinMcpNames))) ↔
        "grep_app" ∈ disabled := by
      simp [List.mem_filter, builtinMcpNames]
    rw [hmain, hmain]
    simp only [e1, e2, e3]

/-- C3 — State machine error atomicity: a fire on a live instance fails
with `InstanceTerminated` from a terminal state, `InvalidTransition` when
no transition is declared, `GuardRejected` when the declared guard
rejects, and in each case the engine (hence the instance's current state,
history and context) is returned unchanged; in the example definition,
firing `start` then `finish` reaches `done`, after which every fire fails
with `InstanceTerminated`, and firing `(idle, finish)` fails with
`InvalidTransition` leaving the state at `idle`. -/
theorem state_machine_error_atomicity :
    (∀ (eng : StateMachineEngine) (sessionId definitionId event : String)
        (patch : List (String × String)) (now : Nat) (inst : SMInstance)
        (d : SMDefinition),
      lookupPair eng.instances (sessionId, definitionId) = some inst →
      (eng.definitions.find? (fun p => p.1 = definitionId)).map Prod.snd = some d →
      ((inst.currentState ∈ d.terminal →
          eng.fire sessionId definitionId event patch now =
            (eng, .error .instanceTerminated)) ∧
       (inst.currentState ∉ d.terminal →
          lookupPair d.transitions (inst.currentState, event) = none →
          eng.fire sessionId definitionId event patch now =
            (eng, .error .invalidTransition)) ∧
       (∀ next guard, inst.currentState ∉ d.terminal →
          lookupPair d.transitions (inst.currentState, event) = some next →
          lookupPair d.guards (inst.currentState, event) = some guard →
          guard inst.context = false →
          eng.fire sessionId definitionId event patch now =
            (eng, .error .guardRejected)))) ∧
    ((exampleEngine.fire "s" "wf" "start" [] 1).2 = .ok "running" ∧
     ((exampleEngine.fire "s" "wf" "start" [] 1).1.fire "s" "wf" "finish" [] 2).2 =
       .ok "done" ∧
     (((exampleEngine.fire "s" "wf" "start" [] 1).1.fire "s" "wf" "finish" [] 2).1).currentStateOf
       "s" "wf" = some "done" ∧
     (∀ (event : String) (patch : List (String × String)) (now : Nat),
        (((exampleEngine.fire "s" "wf" "start" [] 1).1.fire "s" "wf" "finish" [] 2).1).fire
            "s" "wf" event patch now =
          ((((exampleEngine.fire "s" "wf" "start" [] 1).1.fire "s" "wf" "finish" [] 2).1),
           .error .instanceTerminated)) ∧
     exampleEngine.fire "s" "wf" "finish" [] 1 = (exampleEngine, .error .invalidTransition) ∧
     exampleEngine.currentStateOf "s" "wf" = some "idle") := by
  constructor
  · intro eng sessionId definitionId event patch now inst d hinst hdef
    refine ⟨?_, ?_, ?_⟩
    · intro hterm
      simp [StateMachineEngine.fire, hinst, hdef, fireInstance, hterm]
    · intro hterm htr
      simp [StateMachineEngine.fire, hinst, hdef, fireInstance, hterm, htr]
    · intro next guard hterm htr hg hfalse
      simp [StateMachineEngine.fire, hinst, hdef, fireInstance, hterm, htr, hg, hfalse]
  · exact ⟨rfl, rfl, rfl, fun _ _ _ => rfl, rfl, rfl⟩

/-- C3 witness: firing the undefined `(idle, finish)` pair on the example
engine fails with `InvalidTransition` and leaves the engine unchanged. -/
theorem state_machine_error_atomicity_witness :
    exampleEngine.fire "s" "wf" "finish" [] 1 =
      (exampleEngine, .error .invalidTransition) :=
  ((state_machine_error_atomicity.1 exampleEngine "s" "wf" "finish" [] 1
      { currentState := "idle", history := [("idle", 0)], context := [] }
      exampleDef rfl rfl).2.1 (by decide) rfl)

/-- Per-line shape of `keptLine`: a line contributes the value
`JSON.parse` gives it (with failures read as `null`) unless that value is
`null`. -/
theorem keptLine_eq (line : String) :
    keptLine line =
      if ((jsonParse line).getD JsValue.jsNull).isNull then none
      else some ((jsonParse line).getD JsValue.jsNull) := by
  unfold keptLine
  cases h : jsonParse line with
  | none => simp [JsValue.isNull]
  | some j => cases j <;> simp [JsValue.isNull]

/-- The source pipeline (`map` parse-or-null then `filter` non-null)
computes the line-local `filterMap`. -/
theorem filter_parse_eq_filterMap (l : List String) :
    (l.map (fun line => (jsonParse line).getD JsValue.jsNull)).filter (fun e => !e.isNull) =
      l.filterMap keptLine := by
  induction l with
  | nil => rfl
  | cons a l ih =>
      cases h : ((jsonParse a).getD JsValue.jsNull).isNull <;>
        simp [List.filter_cons, List.filterMap_cons, keptLine_eq, h, ih]

/-- C9 counterexample — the claim as stated fails: the line `null` is
valid JSON (`JSON.parse` succeeds on it), yet `loadKrakenTodos` omits it
from the returned list, because the loader cannot distinguish a parsed
`null` from a parse failure. -/
theorem loadKrakenTodos_drops_valid_null_line :
    jsonParse "null" = some JsValue.jsNull ∧ loadKrakenTodos (some "null") = [] :=
  ⟨rfl, rfl⟩

/-- C9 (amended) — todo loading is total and tolerant of corruption:
absent or unreadable files yield `[]`, and otherwise each line of the
trimmed file contributes its parsed value exactly when it parses to a
JSON value other than `null` — lines that are not valid JSON, and lines
whose JSON value is `null`, are silently omitted. -/
theorem loadKrakenTodos_total_and_tolerant :
    loadKrakenTodos none = [] ∧
    ∀ file : Option String, loadKrakenTodos file = loadKrakenTodosSpec file := by
  refine ⟨rfl, ?_⟩
  intro file
  cases file with
  | none => rfl
  | some content =>
      simpa [loadKrakenTodos, loadKrakenTodosSpec] using
        filter_parse_eq_filterMap (jsLines content)

theorem enumFrom_length (xs : List ExperienceInput) :
    ∀ i, (enumFrom i xs).length = xs.length := by
  induction xs with
  | nil => intro i; rfl
  | cons x xs ih => intro i; simp [enumFrom, ih]

theorem enumFrom_append (xs ys : List ExperienceInput) :
    ∀ i, enumFrom i (xs ++ ys) = enumFrom i xs ++ enumFrom (i + xs.length) ys := by
  induction xs with
  | nil => intro i; simp [enumFrom]
  | cons x xs ih =>
      intro i
      have harith : i + 1 + xs.length = i + (xs.length + 1) := by omega
      simp [enumFrom, ih (i + 1), harith]

theorem enumFrom_map_id (xs : List ExperienceInput) :
    ∀ i, (enumFrom i xs).map Experience.id = List.range' i xs.length := by
  induction xs with
  | nil => intro i; rfl
  | cons x xs ih =>
      intro i
      simp [enumFrom, List.range'_succ, ih, mkExperience]

/-- The exact state of the store after recording `xs` from empty: the id
counter equals the number of records ever made, and the entries are the
tail of the unbounded record sequence that fits under the cap. -/
theorem recordAll_empty_spec (m : Nat) (xs : List ExperienceInput) :
    (ExperienceStore.empty m).recordAll xs =
      { maxEntries := m, nextId := xs.length,
        entries := (enumFrom 0 xs).drop (xs.length - m) } := by
  induction xs using List.reverseRecOn with
  | nil => simp [ExperienceStore.recordAll, ExperienceStore.empty, enumFrom]
  | append_singleton xs x ih =>
      have hstep : (ExperienceStore.empty m).recordAll (xs ++ [x]) =
          (((ExperienceStore.empty m).recordAll xs).record x).1 := by
        simp [ExperienceStore.recordAll, List.foldl_append]
      rw [hstep, ih]
      have hlen : (enumFrom 0 xs).length = xs.length := enumFrom_length xs 0
      have henum : enumFrom 0 (xs ++ [x]) =
          enumFrom 0 xs ++ [mkExperience xs.length x] := by
        simpa [enumFrom] using enumFrom_append xs [x] 0
      by_cases hcap : m < xs.length + 1
      · -- the cap is hit: one record is evicted
        have hdroplen : ((enumFrom 0 xs).drop (xs.length - m)).length = m := by
          simp [hlen]; omega
        simp only [ExperienceStore.record, ExperienceStore.evictOldest,
          List.length_append, List.length_singleton, hdroplen,
          if_pos (show m < m + 1 by omega)]
        refine ExperienceStore.mk.injEq .. ▸ ⟨rfl, by simp, ?_⟩
        have hle : xs.length - m ≤ (enumFrom 0 xs).length := by omega
        have h1 : m + 1 - m = 1 := by omega
        rw [henum, h1, ← List.drop_append_of_le_length hle, List.drop_drop]
        congr 1
        omega
      · -- still under the cap: nothing evicted
        have hdroplen : ((enumFrom 0 xs).drop (xs.length - m)).length = xs.length := by
          simp [hlen]; omega
        simp only [ExperienceStore.record, ExperienceStore.evictOldest,
          List.length_append, List.length_singleton, hdroplen,
          if_neg (show ¬ m < xs.length + 1 from hcap)]
        refine ExperienceStore.mk.injEq .. ▸ ⟨rfl, by simp, ?_⟩
        rw [henum]
        have h0 : xs.length - m = 0 := by omega
        have h1 : xs.length + 1 - m = 0 := by omega
        simp [h0, h1]

/-- C1 — Experience cap invariant: once at least `maxEntries` records
have been made, every further `record` leaves `count()` equal to
`maxEntries`, and the surviving records are exactly the most recent
`maxEntries` of the full record sequence — the ones with the highest ids
(`record` evicts the lowest-id records automatically). -/
theorem experience_cap_invariant (m : Nat) (xs : List ExperienceInput)
    (hcap : m ≤ xs.length) :
    ((ExperienceStore.empty m).recordAll xs).count = m ∧
    ((ExperienceStore.empty m).recordAll xs).entries =
      (enumFrom 0 xs).drop (xs.length - m) ∧
    ((ExperienceStore.empty m).recordAll xs).entries.map Experience.id =
      List.range' (xs.length - m) m := by
  rw [recordAll_empty_spec]
  refine ⟨?_, rfl, ?_⟩
  · simp [ExperienceStore.count, enumFrom_length]
    omega
  · show ((enumFrom 0 xs).drop (xs.length - m)).map Experience.id = _
    rw [List.map_drop, enumFrom_map_id]
    obtain ⟨k, hk⟩ : ∃ k, xs.length = k + m := ⟨xs.length - m, by omega⟩
    have hk2 : k + m - m = k := by omega
    rw [hk, hk2]
    have happ := List.range'_append_1 0 k m
    rw [Nat.zero_add] at happ
    rw [Nat.add_comm m k] at happ
    rw [← happ]
    have hlen : (List.range' 0 k).length = k := by simp
    nth_rewrite 1 [← hlen]
    rw [List.drop_left]

/-- C1 witness: with `maxEntries = 2`, recording three experiences leaves
two records, holding the two highest ids `[1, 2]`. -/
theorem experience_cap_invariant_witness :
    ((ExperienceStore.empty 2).recordAll
        [sampleInput "a", sampleInput "b", sampleInput "c"]).count = 2 ∧
    ((ExperienceStore.empty 2).recordAll
        [sampleInput "a", sampleInput "b", sampleInput "c"]).entries.map Experience.id =
      List.range' 1 2 := by
  obtain ⟨h1, _, h3⟩ := experience_cap_invariant 2
    [sampleInput "a", sampleInput "b", sampleInput "c"] (by decide)
  exact ⟨h1, h3⟩

/-- A store holding no node with the merge key of `x` finds none. -/
theorem find?_key_eq_none (g : KnowledgeGraphStore) (x : NodeInput)
    (h : g.countKey x = 0) :
    g.nodes.find? (fun n => sameNodeKey n x) = none := by
  rw [List.find?_eq_none]
  intro a ha
  have hfil : g.nodes.filter (fun n => sameNodeKey n x) = [] :=
    List.length_eq_zero.mp h
  simpa using List.filter_eq_nil_iff.mp hfil a ha

/-- The confidence bump of a merge leaves the merge key unchanged. -/
theorem bump_preserves_key (i : Nat) (c : ℚ) (m : KnowledgeNode) (x : NodeInput) :
    sameNodeKey
      (if m.id = i then { m with confidence := mergeConfidence m.confidence c } else m)
      x = sameNodeKey m x := by
  split <;> rfl

/-- The confidence bump of a merge leaves the id unchanged. -/
theorem bump_preserves_id (i : Nat) (c : ℚ) (m : KnowledgeNode) :
    (if m.id = i then { m with confidence := mergeConfidence m.confidence c } else m).id
      = m.id := by
  split <;> rfl

/-- In a list of nodes with pairwise distinct ids, an id determines the
element. -/
theorem eq_of_mem_pairwise_ne {l : List KnowledgeNode}
    (hp : l.Pairwise (fun a b => a.id ≠ b.id)) {a b : KnowledgeNode}
    (ha : a ∈ l) (hb : b ∈ l) (hid : a.id = b.id) : a = b := by
  by_contra hne
  have hsymm : Symmetric (fun a b : KnowledgeNode => a.id ≠ b.id) := by
    intro x y hxy h
    exact hxy h.symm
  exact (hp.forall hsymm) ha hb hne hid

/-- The empty knowledge graph is well-formed. -/
theorem wf_empty (m : Nat) (inc : ℚ) : WfGraph (KnowledgeGraphStore.empty m inc) := by
  intro e he
  simp [KnowledgeGraphStore.empty] at he

/-- A single graph operation preserves the no-dangling-edge invariant. -/
theorem wf_applyGraphOp (g : KnowledgeGraphStore) (op : GraphOp) (h : WfGraph g) :
    WfGraph (applyGraphOp g op) := by
  cases op with
  | upsert x now =>
      show WfGraph (g.upsertNode x now).1
      rcases hfind : g.nodes.find? (fun m => sameNodeKey m x) with _ | n0
      · -- a fresh node is inserted, possibly evicting the weakest node
        simp only [KnowledgeGraphStore.upsertNode, hfind]
        split
        · -- cap exceeded: eviction with cascade
          simp only [KnowledgeGraphStore.evictCascade]
          split
          · -- no eviction target (impossible for a nonempty list, but harmless)
            intro e he
            obtain ⟨hf, ht⟩ := h e he
            constructor <;>
              · simp only [KnowledgeGraphStore.hasNode, List.any_append, Bool.or_eq_true]
                exact Or.inl (by assumption)
          · -- evict v and drop its incident edges
            rename_i v _
            intro e he
            obtain ⟨he0, hincident⟩ := List.mem_filter.mp he
            have hfe : e.fromId ≠ v.id ∧ e.toId ≠ v.id := by simpa using hincident
            obtain ⟨hf, ht⟩ := h e he0
            have key : ∀ i : Nat, g.hasNode i = true → i ≠ v.id →
                ((g.nodes ++ [newNodeOf g x now]).filter
                  (fun n => n.id ≠ v.id)).any (fun n => n.id = i) = true := by
              intro i hi hne
              simp only [KnowledgeGraphStore.hasNode, List.any_eq_true] at hi
              obtain ⟨n, hn, hni⟩ := hi
              have hnid : n.id = i := by simpa using hni
              simp only [List.any_eq_true]
              refine ⟨n, List.mem_filter.mpr ⟨List.mem_append_left _ hn, ?_⟩, hni⟩
              simp [hnid, hne]
            exact ⟨key e.fromId hf hfe.1, key e.toId ht hfe.2⟩
        · -- below cap: nodes only grow
          intro e he
          obtain ⟨hf, ht⟩ := h e he
          constructor <;>
            · simp only [KnowledgeGraphStore.hasNode, List.any_append, Bool.or_eq_true]
              exact Or.inl (by assumption)
      · -- merge: ids unchanged, edges unchanged
        simp only [KnowledgeGraphStore.upsertNode, hfind]
        intro e he
        obtain ⟨hf, ht⟩ := h e he
        have key : ∀ i : Nat, g.hasNode i = true →
            (g.nodes.map (fun m =>
              if m.id = n0.id then
                { m with confidence := mergeConfidence m.confidence g.confidenceIncrement }
              else m)).any (fun n => n.id = i) = true := by
          intro i hi
          simp only [KnowledgeGraphStore.hasNode, List.any_eq_true] at hi
          obtain ⟨n, hn, hni⟩ := hi
          simp only [List.any_eq_true]
          refine ⟨_, List.mem_map.mpr ⟨n, hn, rfl⟩, ?_⟩
          simpa [bump_preserves_id] using hni
        exact ⟨key e.fromId hf, key e.toId ht⟩
  | addEdge f t rel w =>
      show WfGraph (match g.addEdge f t rel w with | .ok g' => g' | .error _ => g)
      by_cases hc : (g.hasNode f && g.hasNode t) = true
      · have hcf : g.hasNode f = true := by simpa using And.left (by simpa using hc)
        have hct : g.hasNode t = true := by simpa using And.right (by simpa using hc)
        simp only [KnowledgeGraphStore.addEdge, hc, if_true]
        intro e he
        rcases List.mem_append.mp he with hold | hnew
        · exact h e hold
        · rcases List.mem_singleton.mp hnew with rfl
          exact ⟨hcf, hct⟩
      · simp only [KnowledgeGraphStore.addEdge, hc, if_false]
        exact h

/-- Any sequence of graph operations preserves well-formedness. -/
theorem wf_runGraphOps (g : KnowledgeGraphStore) (ops : List GraphOp)
    (h : WfGraph g) : WfGraph (runGraphOps g ops) := by
  induction ops generalizing g with
  | nil => exact h
  | cons op ops ih => exact ih _ (wf_applyGraphOp g op h)

/-- `neighbors` only ever returns nodes that are present in the store. -/
theorem neighbors_subset (g : KnowledgeGraphStore) (i : Nat) :
    ∀ n ∈ g.neighbors i, n ∈ g.nodes := by
  intro n hn
  simp only [KnowledgeGraphStore.neighbors] at hn
  obtain ⟨e, _, hfe⟩ := List.mem_filterMap.mp hn
  split at hfe
  · exact List.mem_of_find?_eq_some hfe
  · split at hfe
    · exact List.mem_of_find?_eq_some hfe
    · cases hfe

/-- C5 — Idempotent upsert with bounded confidence: two `upsertNode`
calls with the same kind and normalized content, on a store that does not
yet hold the key and is below its cap, leave exactly one node with that
key and one net new node; the second call raises its confidence to
`confidence + (1-confidence) * increment`, strictly above the value after
the first call yet never above 1.  Moreover `upsertNode` never lowers the
confidence of any surviving node (only the explicit `decay` sweep can). -/
theorem idempotent_upsert_bounded_confidence :
    (∀ (g : KnowledgeGraphStore) (x : NodeInput) (t1 t2 : Nat),
      g.countKey x = 0 → g.nodes.length < g.maxNodes →
      0 < g.confidenceIncrement → g.confidenceIncrement ≤ 1 →
      x.confidence < 1 →
      ((g.upsertNode x t1).1.upsertNode x t2).1.countKey x = 1 ∧
      ((g.upsertNode x t1).1.upsertNode x t2).1.nodes.length = g.nodes.length + 1 ∧
      ∃ n ∈ ((g.upsertNode x t1).1.upsertNode x t2).1.nodes,
        n.id = g.nextId ∧
        n.confidence = mergeConfidence x.confidence g.confidenceIncrement ∧
        x.confidence < n.confidence ∧ n.confidence ≤ 1) ∧
    (∀ (g : KnowledgeGraphStore) (x : NodeInput) (now : Nat),
      0 ≤ g.confidenceIncrement →
      (∀ n ∈ g.nodes, n.confidence ≤ 1) →
      (∀ n ∈ g.nodes, n.id < g.nextId) →
      g.nodes.Pairwise (fun a b => a.id ≠ b.id) →
      ∀ n' ∈ (g.upsertNode x now).1.nodes, ∀ n ∈ g.nodes, n'.id = n.id →
        n.confidence ≤ n'.confidence) := by
  constructor
  · intro g x t1 t2 hkey hlen hinc0 hinc1 hconf1
    have hnone := find?_key_eq_none g x hkey
    have hfil : g.nodes.filter (fun n => sameNodeKey n x) = [] :=
      List.length_eq_zero.mp hkey
    have hnocap : ¬ (g.maxNodes < g.nodes.length + 1) := by omega
    have h1 : (g.upsertNode x t1).1 =
        { g with nextId := g.nextId + 1, nodes := g.nodes ++ [newNodeOf g x t1] } := by
      simp [KnowledgeGraphStore.upsertNode, hnone, hnocap]
    have hkeynode : sameNodeKey (newNodeOf g x t1) x = true := by
      simp [sameNodeKey, newNodeOf]
    have hfind2 : (g.nodes ++ [newNodeOf g x t1]).find? (fun n => sameNodeKey n x) =
        some (newNodeOf g x t1) := by
      rw [List.find?_append, hnone]
      simp [List.find?, hkeynode]
    have h2 : ((g.upsertNode x t1).1.upsertNode x t2).1 =
        { g with
          nextId := g.nextId + 1
          nodes := (g.nodes ++ [newNodeOf g x t1]).map (fun m =>
            if m.id = (newNodeOf g x t1).id then
              { m with confidence := mergeConfidence m.confidence g.confidenceIncrement }
            else m) } := by
      rw [h1]
      simp only [KnowledgeGraphStore.upsertNode, hfind2]
    rw [h2]
    refine ⟨?_, ?_, ?_⟩
    · show (((g.nodes ++ [newNodeOf g x t1]).map _).filter
        (fun n => sameNodeKey n x)).length = 1
      rw [List.filter_map]
      simp only [Function.comp_def]
      rw [List.filter_congr
        (fun m _ => bump_preserves_key (newNodeOf g x t1).id g.confidenceIncrement m x)]
      simp [List.filter_append, hfil, List.filter, hkeynode]
    · simp
    · refine ⟨{ (newNodeOf g x t1) with
          confidence := mergeConfidence x.confidence g.confidenceIncrement }, ?_, rfl, rfl,
          ?_, ?_⟩
      · refine List.mem_map.mpr ⟨newNodeOf g x t1, List.mem_append_right _ ?_, by simp [newNodeOf]⟩
        simp
      · show x.confidence < mergeConfidence x.confidence g.confidenceIncrement
        have := mul_pos (sub_pos.mpr hconf1) hinc0
        simp only [mergeConfidence]
        linarith
      · show mergeConfidence x.confidence g.confidenceIncrement ≤ 1
        have := mul_nonneg (by linarith : (0:ℚ) ≤ 1 - x.confidence)
          (by linarith : (0:ℚ) ≤ 1 - g.confidenceIncrement)
        simp only [mergeConfidence]
        nlinarith
  · intro g x now hinc hconfle hfresh hpw n' hn' n hn hid
    rcases hfind : g.nodes.find? (fun m => sameNodeKey m x) with _ | n0
    · -- no key match: a fresh node is inserted, possibly evicting
      simp only [KnowledgeGraphStore.upsertNode, hfind] at hn'
      have hsub : n' ∈ g.nodes ++ [newNodeOf g x now] := by
        split at hn'
        · simp only [KnowledgeGraphStore.evictCascade] at hn'
          split at hn'
          · exact hn'
          · exact (List.mem_filter.mp hn').1
        · exact hn'
      rcases List.mem_append.mp hsub with hmem | hmem
      · have : n' = n := eq_of_mem_pairwise_ne hpw hmem hn hid
        rw [this]
      · have hidn : n'.id = g.nextId := by
          rcases List.mem_singleton.mp hmem with rfl
          rfl
        have := hfresh n hn
        omega
    · -- key match: only the matched node's confidence is bumped upward
      simp only [KnowledgeGraphStore.upsertNode, hfind] at hn'
      obtain ⟨a, ha, hfa⟩ := List.mem_map.mp hn'
      have hida : n'.id = a.id := by
        rw [← hfa]
        exact bump_preserves_id n0.id g.confidenceIncrement a
      have haeq : a = n := eq_of_mem_pairwise_ne hpw ha hn (hida ▸ hid)
      subst haeq
      rw [← hfa]
      split
      · show a.confidence ≤ mergeConfidence a.confidence g.confidenceIncrement
        have := mul_nonneg (by linarith [hconfle a ha] : (0:ℚ) ≤ 1 - a.confidence) hinc
        simp only [mergeConfidence]
        linarith
      · exact le_refl _

/-- C5 witness: two upserts of the same fact into an empty two-slot store
leave one node with merged confidence `0.55`, strictly above `0.5` and at
most 1. -/
theorem idempotent_upsert_bounded_confidence_witness :
    (((KnowledgeGraphStore.empty 2 (1 / 10)).upsertNode
        { kind := .fact, content := "x", confidence := 1 / 2 } 1).1.upsertNode
        { kind := .fact, content := "x", confidence := 1 / 2 } 2).1.countKey
      { kind := .fact, content := "x", confidence := 1 / 2 } = 1 ∧
    ∃ n ∈ (((KnowledgeGraphStore.empty 2 (1 / 10)).upsertNode
        { kind := .fact, content := "x", confidence := 1 / 2 } 1).1.upsertNode
        { kind := .fact, content := "x", confidence := 1 / 2 } 2).1.nodes,
      n.id = 0 ∧ n.confidence = mergeConfidence (1 / 2) (1 / 10) ∧
      (1 : ℚ) / 2 < n.confidence ∧ n.confidence ≤ 1 := by
  obtain ⟨h1, _, h3⟩ := idempotent_upsert_bounded_confidence.1
    (KnowledgeGraphStore.empty 2 (1 / 10))
    { kind := .fact, content := "x", confidence := 1 / 2 } 1 2
    (by decide) (by decide) (by norm_num : (0 : ℚ) < 1 / 10)
    (by norm_num : (1 : ℚ) / 10 ≤ 1) (by norm_num : (1 : ℚ) / 2 < 1)
  exact ⟨h1, h3⟩

/-- C2 — Knowledge graph no-dangling-edge invariant with eviction
cascade: after any operation sequence from an empty store every edge
endpoint references a present node; `neighbors` never returns an absent
node; and when an insert overflows `maxNodes`, the evicted node is one
with minimal confidence (ties broken towards the oldest review time,
falling back to creation time) and every edge incident to it is removed
with it. -/
theorem knowledge_graph_no_dangling :
    (∀ (m : Nat) (inc : ℚ) (ops : List GraphOp),
      WfGraph (runGraphOps (KnowledgeGraphStore.empty m inc) ops)) ∧
    (∀ (g : KnowledgeGraphStore) (i : Nat), ∀ n ∈ g.neighbors i, n ∈ g.nodes) ∧
    (∀ (g : KnowledgeGraphStore) (x : NodeInput) (now : Nat),
      g.countKey x = 0 → g.nodes.length = g.maxNodes →
      ∃ v ∈ g.nodes ++ [newNodeOf g x now],
        (∀ u ∈ g.nodes ++ [newNodeOf g x now],
          v.confidence ≤ u.confidence ∧
          (u.confidence = v.confidence → reviewTime v ≤ reviewTime u)) ∧
        (g.upsertNode x now).1.nodes =
          (g.nodes ++ [newNodeOf g x now]).filter (fun n => n.id ≠ v.id) ∧
        (g.upsertNode x now).1.edges =
          g.edges.filter (fun e => e.fromId ≠ v.id && e.toId ≠ v.id)) := by
  refine ⟨fun m inc ops => wf_runGraphOps _ ops (wf_empty m inc),
    fun g i => neighbors_subset g i, ?_⟩
  intro g x now hkey hlen
  have hnone := find?_key_eq_none g x hkey
  obtain ⟨v, hv⟩ : ∃ v, evictTarget (g.nodes ++ [newNodeOf g x now]) = some v := by
    rcases hv : evictTarget (g.nodes ++ [newNodeOf g x now]) with _ | v
    · exact absurd (List.argmin_eq_none.mp hv) (by simp)
    · exact ⟨v, rfl⟩
  have hvmem : v ∈ g.nodes ++ [newNodeOf g x now] := List.argmin_mem hv
  have hcap : g.maxNodes < (g.nodes ++ [newNodeOf g x now]).length := by
    simp [hlen]
  have hres : (g.upsertNode x now).1 =
      { g with
        nextId := g.nextId + 1
        nodes := (g.nodes ++ [newNodeOf g x now]).filter (fun n => n.id ≠ v.id)
        edges := g.edges.filter (fun e => e.fromId ≠ v.id && e.toId ≠ v.id) } := by
    simp only [KnowledgeGraphStore.upsertNode, hnone,
      KnowledgeGraphStore.evictCascade, hv, hcap, if_true]
  refine ⟨v, hvmem, ?_, by rw [hres], by rw [hres]⟩
  intro u hu
  have hnlt := List.not_lt_of_mem_argmin hu hv
  simp only [evictKey, Prod.Lex.lt_iff] at hnlt
  push_neg at hnlt
  obtain ⟨h1, h2⟩ := hnlt
  exact ⟨h1, h2⟩

/-- C2 witness: inserting a third fact into the full `exampleGraph`
evicts the node with the lowest confidence (id 1, confidence 0.3)
together with its incident edge. -/
theorem knowledge_graph_no_dangling_witness :
    ∃ v ∈ exampleGraph.nodes ++
        [newNodeOf exampleGraph { kind := .fact, content := "z", confidence := 4 / 10 } 3],
      (∀ u ∈ exampleGraph.nodes ++
          [newNodeOf exampleGraph { kind := .fact, content := "z", confidence := 4 / 10 } 3],
        v.confidence ≤ u.confidence ∧
        (u.confidence = v.confidence → reviewTime v ≤ reviewTime u)) ∧
      (exampleGraph.upsertNode
          { kind := .fact, content := "z", confidence := 4 / 10 } 3).1.nodes =
        (exampleGraph.nodes ++
          [newNodeOf exampleGraph { kind := .fact, content := "z", confidence := 4 / 10 } 3]).filter
          (fun n => n.id ≠ v.id) ∧
      (exampleGraph.upsertNode
          { kind := .fact, content := "z", confidence := 4 / 10 } 3).1.edges =
        exampleGraph.edges.filter (fun e => e.fromId ≠ v.id && e.toId ≠ v.id) :=
  knowledge_graph_no_dangling.2.2 exampleGraph
    { kind := .fact, content := "z", confidence := 4 / 10 } 3 (by decide) (by decide)

/-- C4 — FSRS grade monotonicity: with the same memory state and elapsed
time, the post-review stability for `easy` dominates `good`, which
dominates `hard`; grade `again` strictly decreases stability — it is
multiplied by `lapseFactor` — and increments `lapses`. -/
theorem fsrs_grade_monotonicity (p : FsrsParams) (s : FsrsState) (t now : ℝ)
    (hstab : 0 < s.stability) (hdiff : s.difficulty ≤ maxDifficulty)
    (hlf0 : 0 < p.lapseFactor) (hlf1 : p.lapseFactor < 1) :
    (fsrsReview p s .good t now).stability ≤ (fsrsReview p s .easy t now).stability ∧
    (fsrsReview p s .hard t now).stability ≤ (fsrsReview p s .good t now).stability ∧
    (fsrsReview p s .again t now).stability < s.stability ∧
    (fsrsReview p s .again t now).stability = s.stability * p.lapseFactor ∧
    (fsrsReview p s .again t now).lapses = s.lapses + 1 := by
  have hr : 0 < retrievabilityOf s.stability t := Real.exp_pos _
  have hK : 0 ≤ Real.exp p.growthRate * (11 - s.difficulty) *
      Real.rpow (retrievabilityOf s.stability t) (-p.decayRate) := by
    have h1 : 0 < Real.exp p.growthRate := Real.exp_pos _
    have h2 : 0 ≤ 11 - s.difficulty := by
      simp only [maxDifficulty] at hdiff
      linarith
    have h3 : 0 < Real.rpow (retrievabilityOf s.stability t) (-p.decayRate) :=
      Real.rpow_pos_of_pos hr _
    exact mul_nonneg (mul_nonneg h1.le h2) h3.le
  set K := Real.exp p.growthRate * (11 - s.difficulty) *
    Real.rpow (retrievabilityOf s.stability t) (-p.decayRate) with hKdef
  have heasy : (fsrsReview p s .easy t now).stability =
      s.stability * (1 + K * (gradeBonus .easy - 1)) := rfl
  have hgood : (fsrsReview p s .good t now).stability =
      s.stability * (1 + K * (gradeBonus .good - 1)) := rfl
  have hhard : (fsrsReview p s .hard t now).stability =
      s.stability * (1 + K * (gradeBonus .hard - 1)) := rfl
  refine ⟨?_, ?_, ?_, rfl, rfl⟩
  · rw [heasy, hgood]
    have hb : gradeBonus .good - 1 ≤ gradeBonus .easy - 1 := by norm_num [gradeBonus]
    have := mul_le_mul_of_nonneg_left hb hK
    nlinarith
  · rw [hgood, hhard]
    have hb : gradeBonus .hard - 1 ≤ gradeBonus .good - 1 := by norm_num [gradeBonus]
    have := mul_le_mul_of_nonneg_left hb hK
    nlinarith
  · show s.stability * p.lapseFactor < s.stability
    nlinarith

/-- C4 witness: at stability 1, difficulty 5 and lapse factor ½ the
grade ordering and the strict lapse decrease hold concretely. -/
theorem fsrs_grade_monotonicity_witness :
    (fsrsReview ⟨1, 5, 0, 0, 1 / 2, 9 / 10⟩ ⟨1, 5, 0, 0, 0⟩ .good 0 0).stability ≤
      (fsrsReview ⟨1, 5, 0, 0, 1 / 2, 9 / 10⟩ ⟨1, 5, 0, 0, 0⟩ .easy 0 0).stability ∧
    (fsrsReview ⟨1, 5, 0, 0, 1 / 2, 9 / 10⟩ ⟨1, 5, 0, 0, 0⟩ .hard 0 0).stability ≤
      (fsrsReview ⟨1, 5, 0, 0, 1 / 2, 9 / 10⟩ ⟨1, 5, 0, 0, 0⟩ .good 0 0).stability ∧
    (fsrsReview ⟨1, 5, 0, 0, 1 / 2, 9 / 10⟩ ⟨1, 5, 0, 0, 0⟩ .again 0 0).stability <
      (⟨1, 5, 0, 0, 0⟩ : FsrsState).stability ∧
    (fsrsReview ⟨1, 5, 0, 0, 1 / 2, 9 / 10⟩ ⟨1, 5, 0, 0, 0⟩ .again 0 0).stability =
      (⟨1, 5, 0, 0, 0⟩ : FsrsState).stability * (1 / 2) ∧
    (fsrsReview ⟨1, 5, 0, 0, 1 / 2, 9 / 10⟩ ⟨1, 5, 0, 0, 0⟩ .again 0 0).lapses = 0 + 1 :=
  fsrs_grade_monotonicity ⟨1, 5, 0, 0, 1 / 2, 9 / 10⟩ ⟨1, 5, 0, 0, 0⟩ 0 0
    one_pos (by norm_num [maxDifficulty]) (by norm_num) (by norm_num)

/-- `upsertNode` never populates a schedule: if no stored node has one,
none has one afterwards either. -/
theorem schedule_none_upsert (g : KnowledgeGraphStore) (x : NodeInput) (now : Nat)
    (h : ∀ n ∈ g.nodes, n.schedule = none) :
    ∀ n ∈ (g.upsertNode x now).1.nodes, n.schedule = none := by
  intro n hn
  rcases hfind : g.nodes.find? (fun m => sameNodeKey m x) with _ | n0
  · simp only [KnowledgeGraphStore.upsertNode, hfind] at hn
    have hsub : n ∈ g.nodes ++ [newNodeOf g x now] := by
      split at hn
      · simp only [KnowledgeGraphStore.evictCascade] at hn
        split at hn
        · exact hn
        · exact (List.mem_filter.mp hn).1
      · exact hn
    rcases List.mem_append.mp hsub with hm | hm
    · exact h n hm
    · rcases List.mem_singleton.mp hm with rfl
      rfl
  · simp only [KnowledgeGraphStore.upsertNode, hfind] at hn
    obtain ⟨a, ha, hfa⟩ := List.mem_map.mp hn
    rw [← hfa]
    split <;> exact h a ha

/-- `addEdge` (including its failure path) never changes the node list. -/
theorem addEdge_nodes (g : KnowledgeGraphStore) (f t : Nat) (rel : EdgeRelation)
    (w : ℚ) : (applyGraphOp g (.addEdge f t rel w)).nodes = g.nodes := by
  by_cases hc : (g.hasNode f && g.hasNode t) = true <;>
    simp [applyGraphOp, KnowledgeGraphStore.addEdge, hc]

/-- One system operation in a scheduler-less context keeps the scheduler
absent and every node schedule-free. -/
theorem schedule_none_applySystemOp (ctx : LearningSystemContext) (op : SystemOp)
    (hs : ctx.fsrsScheduler = none)
    (h : ∀ n ∈ ctx.knowledgeGraph.nodes, n.schedule = none) :
    (applySystemOp ctx op).fsrsScheduler = none ∧
    ∀ n ∈ (applySystemOp ctx op).knowledgeGraph.nodes, n.schedule = none := by
  cases op with
  | upsertNode x now => exact ⟨hs, schedule_none_upsert ctx.knowledgeGraph x now h⟩
  | addEdge f t rel w =>
      refine ⟨hs, fun n hn => h n ?_⟩
      have he : (applySystemOp ctx (SystemOp.addEdge f t rel w)).knowledgeGraph.nodes =
          ctx.knowledgeGraph.nodes := addEdge_nodes ctx.knowledgeGraph f t rel w
      exact he ▸ hn
  | schedule nodeId st =>
      have hctx : applySystemOp ctx (SystemOp.schedule nodeId st) = ctx := by
        simp only [applySystemOp, hs]
      rw [hctx]
      exact ⟨hs, h⟩

/-- A whole operation sequence in a scheduler-less context keeps every
node schedule-free. -/
theorem schedule_none_runSystemOps (ctx : LearningSystemContext) (ops : List SystemOp)
    (hs : ctx.fsrsScheduler = none)
    (h : ∀ n ∈ ctx.knowledgeGraph.nodes, n.schedule = none) :
    (runSystemOps ctx ops).fsrsScheduler = none ∧
    ∀ n ∈ (runSystemOps ctx ops).knowledgeGraph.nodes, n.schedule = none := by
  induction ops generalizing ctx with
  | nil => exact ⟨hs, h⟩
  | cons op ops ih =>
      obtain ⟨hs', h'⟩ := schedule_none_applySystemOp ctx op hs h
      exact ih _ hs' h'

/-- C7 — Scheduler absence: in a context constructed without an FSRS
scheduler, no operation sequence ever makes a knowledge node due —
`dueForReview` returns the empty sequence for every `now` and `limit`,
because the schedule field that due-ness is read from is only ever
populated through the (absent) scheduler. -/
theorem scheduler_absent_nothing_due (ctx : LearningSystemContext)
    (ops : List SystemOp) (now limit : Nat)
    (hs : ctx.fsrsScheduler = none)
    (h : ∀ n ∈ ctx.knowledgeGraph.nodes, n.schedule = none) :
    dueForReview (runSystemOps ctx ops) now limit = [] := by
  obtain ⟨-, hnone⟩ := schedule_none_runSystemOps ctx ops hs h
  simp only [dueForReview]
  have hfil : (runSystemOps ctx ops).knowledgeGraph.nodes.filter
      (fun n => match n.schedule with
        | some st => st.dueAt ≤ now
        | none => false) = [] := by
    rw [List.filter_eq_nil_iff]
    intro a ha
    rw [hnone a ha]
    simp
  rw [hfil]
  simp [sortByDue]

/-- C7 witness: after an upsert and an attempted schedule write in the
scheduler-less `exampleContext`, nothing is due. -/
theorem scheduler_absent_nothing_due_witness :
    dueForReview (runSystemOps exampleContext
      [SystemOp.upsertNode { kind := .fact, content := "x", confidence := 1 / 2 } 1,
       SystemOp.schedule 0
         { stability := 1, difficulty := 5, retrievability := 1, dueAt := 0,
           reviewCount := 0, lapses := 0 }]) 99 10 = [] :=
  scheduler_absent_nothing_due exampleContext
    [SystemOp.upsertNode { kind := .fact, content := "x", confidence := 1 / 2 } 1,
     SystemOp.schedule 0
       { stability := 1, difficulty := 5, retrievability := 1, dueAt := 0,
         reviewCount := 0, lapses := 0 }] 99 10 rfl
    (by simp [exampleContext, KnowledgeGraphStore.empty])

end Kraken
